import Mathlib

/-!
A verification model of `src/auth_utils.rs`: parsing of NATS credential
documents (`load_creds`, `load_nk`), nonce signing (`sign_nonce`) and the
decorated-block regex `USER_CONFIG_RE`.

Documents are modelled as lists of characters (`SecureString` is a
memory-scrubbing wrapper around `String`; scrubbing is a memory property
outside this model, and the file I/O of `fs::read_to_string` is performed by
the caller, so the model takes the document contents directly).  The external
`nkeys` primitives (`KeyPair::from_seed`, `KeyPair::sign`) are modelled as
injected functions over an abstract keypair type, following the spec's
trusted-primitive interface; `none` models their error results.

The regex
`\s*(?:(?:[-]{3,}.*[-]{3,}\r?\n)([\w\-.=]+)(?:\r?\n[-]{3,}.*[-]{3,}\r?\n))`
is matched with the regex crate's leftmost-first semantics.  The crate's `\w`
is Unicode-aware (`\p{Word}`); it is modelled here on documents confined to
the Latin-1 range, over which it is exactly the ASCII word characters
`[0-9A-Za-z_]` together with the non-ASCII Latin-1 word characters (beyond
Latin-1, `\w` contains further word characters not modelled here).  `\s` is
modelled at its ASCII subset, which loses nothing: the only use of `\s` is
the leading `\s*`, whose extent never affects the captures (see
`matchBlockAt`).
-/

namespace NatsAuth

/-- The non-ASCII word characters (`\p{Word}`) of the Latin-1 range:
ª (U+00AA), µ (U+00B5), º (U+00BA) and the letters U+00C0 to U+00FF except
× (U+00D7) and ÷ (U+00F7).  The Latin-1 range has no word characters from
the Nd, M, Pc or Join_Control components of `\p{Word}` beyond these. -/
def isLatin1WordExtra (c : Char) : Bool :=
  c.toNat = 0xAA || c.toNat = 0xB5 || c.toNat = 0xBA ||
    (0xC0 ≤ c.toNat && c.toNat ≤ 0xFF && c.toNat ≠ 0xD7 && c.toNat ≠ 0xF7)

/-- Character class `[\w\-.=]` of `USER_CONFIG_RE`.  The regex crate's `\w`
is Unicode-aware; on the Latin-1 documents this model covers it is the ASCII
word characters `[0-9A-Za-z_]` plus the non-ASCII Latin-1 word
characters. -/
def isTokenChar (c : Char) : Bool :=
  c.isAlphanum || c == '_' || c == '-' || c == '.' || c == '=' ||
    isLatin1WordExtra c

/-- Whether a whole line (newline removed, trailing CR already stripped)
matches the delimiter pattern `[-]{3,}.*[-]{3,}`: three-or-more dashes,
arbitrary non-newline text, three-or-more dashes.  An existential split into
`dashes ++ text ++ dashes` is equivalent to: length at least 6, first three
characters dashes, last three characters dashes. -/
def isDelim (l : List Char) : Bool :=
  decide (6 ≤ l.length) && (l.take 3).all (fun c => c == '-')
    && (l.reverse.take 3).all (fun c => c == '-')

/-- Drop a single trailing carriage return (the effect of the `\r?` matched
right before each `\n` of the pattern). -/
def stripCR (l : List Char) : List Char :=
  if l.getLast? = some '\r' then l.dropLast else l

/-- Match `[-]{3,}.*[-]{3,}\r?\n` at exactly the head of `s`: the text up to
the first newline (one trailing CR allowed) must be delimiter-shaped, and the
newline must be present.  Returns the remainder after the newline. -/
def matchDelimLine (s : List Char) : Option (List Char) :=
  match s.drop (s.takeWhile (fun c => c != '\n')).length with
  | '\n' :: r =>
    if isDelim (stripCR (s.takeWhile (fun c => c != '\n'))) then some r else none
  | _ => none

/-- Match `\r?\n` at the head of `s`. -/
def matchCRLF : List Char → Option (List Char)
  | '\n' :: r => some r
  | '\r' :: '\n' :: r => some r
  | _ => none

/-- Match one decorated block of `USER_CONFIG_RE` at exactly the head of `s`:
delimiter line, capture line `([\w\-.=]+)`, delimiter line.  Returns the
capture (group 1) and the remainder after the match.  Greediness needs no
backtracking here: the capture class excludes CR and LF, so the capture is
exactly the maximal token-character run, and each `\n` of the pattern matches
the first newline at or after its position.  The leading `\s*` of the regex
is omitted: the delimiter must begin with a dash, which is not whitespace, so
the `\s*` only widens the reported match span leftwards over whitespace and
changes neither the capture nor the end position of any match. -/
def matchBlockAt (s : List Char) : Option (List Char × List Char) :=
  match matchDelimLine s with
  | none => none
  | some r1 =>
    if r1.takeWhile isTokenChar = [] then none
    else
      match matchCRLF (r1.drop (r1.takeWhile isTokenChar).length) with
      | none => none
      | some r2 =>
        match matchDelimLine r2 with
        | none => none
        | some r3 => some (r1.takeWhile isTokenChar, r3)

/-- Leftmost match of `USER_CONFIG_RE`, as searched by `captures_iter`: try
each start position from left to right; on success return the capture and the
remainder after the match (the next search resumes there). -/
def findBlock : List Char → Option (List Char × List Char)
  | [] => none
  | c :: s =>
    match matchBlockAt (c :: s) with
    | some r => some r
    | none => findBlock s

/-- `parse_decorated_jwt`: group 1 of the first match of `USER_CONFIG_RE`
(`captures_iter(contents).next()`). -/
def parse_decorated_jwt (contents : List Char) : Option (List Char) :=
  match findBlock contents with
  | none => none
  | some (cap, _) => some cap

/-- `parse_decorated_nkey`: group 1 of the second match of `USER_CONFIG_RE`
(`captures_iter(contents).nth(1)`). -/
def parse_decorated_nkey (contents : List Char) : Option (List Char) :=
  match findBlock contents with
  | none => none
  | some (_, rest) =>
    match findBlock rest with
    | none => none
    | some (cap, _) => some cap

/-- Error kinds of the operations.  In the source these are `io::Error`
values distinguished by kind and message:
`MissingToken` = InvalidData "cannot parse user JWT from the credentials file",
`MissingSeed` = InvalidData "cannot parse nkey from the credentials file",
`InvalidSeed` = InvalidData wrapping a `KeyPair::from_seed` error,
`NoSeedFound` = InvalidData "no nkey seed found",
`SigningFailed` = Other wrapping a `KeyPair::sign` error. -/
inductive AuthError
  | MissingToken
  | MissingSeed
  | InvalidSeed
  | NoSeedFound
  | SigningFailed
deriving DecidableEq

/-- `load_creds`: take the first decorated block's content as the user JWT
and the second decorated block's content as the nkey seed, then reconstruct
the keypair.  `d` is the injected `KeyPair::from_seed` of the `nkeys` crate
(`none` models a decode failure). -/
def load_creds {K : Type} (d : List Char → Option K) (contents : List Char) :
    Except AuthError (List Char × K) :=
  match parse_decorated_jwt contents with
  | none => .error .MissingToken
  | some jwt =>
    match parse_decorated_nkey contents with
    | none => .error .MissingSeed
    | some nkey =>
      match d nkey with
      | none => .error .InvalidSeed
      | some kp => .ok (jwt, kp)

/-- Rust `str::lines`, accumulator form: split at `\n`, strip one `\r` from
the end of each line that was terminated by `\n`; a final segment without a
terminating newline is yielded as-is, and a trailing newline yields no extra
empty line.  `acc` holds the current line reversed. -/
def rustLinesAux (acc : List Char) : List Char → List (List Char)
  | [] => if acc = [] then [] else [acc.reverse]
  | c :: rest =>
    if c = '\n' then stripCR acc.reverse :: rustLinesAux [] rest
    else rustLinesAux (c :: acc) rest

/-- Rust `str::lines` over a document. -/
def rustLines (s : List Char) : List (List Char) :=
  rustLinesAux [] s

/-- Rust `char::is_whitespace` at its ASCII subset (the Unicode `White_Space`
characters below `0x80`). -/
def isRustWS (c : Char) : Bool :=
  c == ' ' || c == '\t' || c == '\n' || c == '\r' || c == '\x0B' || c == '\x0C'

/-- Rust `str::trim`: remove leading and trailing whitespace. -/
def trimAscii (l : List Char) : List Char :=
  ((l.dropWhile isRustWS).reverse.dropWhile isRustWS).reverse

/-- The seed test of `load_nk`:
`line.starts_with("SO") || line.starts_with("SA") || line.starts_with("SU")`. -/
def isSeedLine (l : List Char) : Bool :=
  ['S', 'O'].isPrefixOf l || ['S', 'A'].isPrefixOf l || ['S', 'U'].isPrefixOf l

/-- The line loop of `load_nk`: trim each line; on the first line passing the
seed test, return the keypair decoded from the trimmed line (or the decode
error); otherwise report that no seed was found. -/
def load_nk_go {K : Type} (d : List Char → Option K) :
    List (List Char) → Except AuthError K
  | [] => .error .NoSeedFound
  | ln :: rest =>
    if isSeedLine (trimAscii ln) then
      match d (trimAscii ln) with
      | none => .error .InvalidSeed
      | some kp => .ok kp
    else load_nk_go d rest

/-- `load_nk`: scan the document's lines for the first nkey seed line. -/
def load_nk {K : Type} (d : List Char → Option K) (contents : List Char) :
    Except AuthError K :=
  load_nk_go d (rustLines contents)

/-- The URL-safe Base64 alphabet: `A-Z`, `a-z`, `0-9`, `-`, `_`. -/
def b64Char (i : Nat) : Char :=
  if i < 26 then Char.ofNat (65 + i)
  else if i < 52 then Char.ofNat (97 + (i - 26))
  else if i < 62 then Char.ofNat (48 + (i - 52))
  else if i = 62 then '-'
  else '_'

/-- Index of a character in the URL-safe Base64 alphabet (inverse of
`b64Char` on the alphabet). -/
def b64Index (c : Char) : Nat :=
  if 'A' ≤ c ∧ c ≤ 'Z' then c.toNat - 65
  else if 'a' ≤ c ∧ c ≤ 'z' then c.toNat - 97 + 26
  else if '0' ≤ c ∧ c ≤ '9' then c.toNat - 48 + 52
  else if c = '-' then 62
  else 63

/-- `base64_url::encode`: URL-safe Base64 without padding.  Each group of
three bytes becomes four alphabet characters; a final group of one byte
becomes two characters and of two bytes becomes three characters, with no
`=` padding appended. -/
def base64urlEncode : List Nat → List Char
  | [] => []
  | [b0] => [b64Char (b0 / 4), b64Char (b0 % 4 * 16)]
  | [b0, b1] =>
    [b64Char (b0 / 4), b64Char (b0 % 4 * 16 + b1 / 16), b64Char (b1 % 16 * 4)]
  | b0 :: b1 :: b2 :: rest =>
    b64Char (b0 / 4) :: b64Char (b0 % 4 * 16 + b1 / 16) ::
      b64Char (b1 % 16 * 4 + b2 / 64) :: b64Char (b2 % 64) ::
        base64urlEncode rest

/-- Modelled from the spec: standard URL-safe Base64 decoding on alphabet
indices, the inverse transform named by the round-trip property (the
repository itself only encodes).  Four indices yield three bytes; a final
group of two indices yields one byte and of three indices yields two bytes;
a lone trailing index is invalid and yields nothing. -/
def base64urlDecodeIdx : List Nat → List Nat
  | [] => []
  | [_] => []
  | [i0, i1] => [i0 * 4 + i1 / 16]
  | [i0, i1, i2] => [i0 * 4 + i1 / 16, i1 % 16 * 16 + i2 / 4]
  | i0 :: i1 :: i2 :: i3 :: rest =>
    (i0 * 4 + i1 / 16) :: (i1 % 16 * 16 + i2 / 4) :: (i2 % 4 * 64 + i3) ::
      base64urlDecodeIdx rest

/-- Modelled from the spec: URL-safe Base64 decoding of a string. -/
def base64urlDecode (s : List Char) : List Nat :=
  base64urlDecodeIdx (s.map b64Index)

/-- `sign_nonce`: sign exactly the nonce bytes with the keypair and encode
the raw signature with URL-safe unpadded Base64.  `sign` is the injected
`KeyPair::sign` of the `nkeys` crate (`none` models a signing error). -/
def sign_nonce {K : Type} (sign : K → List Nat → Option (List Nat)) (kp : K)
    (nonce : List Nat) : Except AuthError (List Char) :=
  match sign kp nonce with
  | none => .error .SigningFailed
  | some sig => .ok (base64urlEncode sig)

/-! ### Helper lemmas about the block scanner -/

theorem takeWhile_all_append (p : Char → Bool) (l : List Char) (x : Char)
    (rest : List Char) (h : ∀ c ∈ l, p c = true) (hx : p x = false) :
    (l ++ x :: rest).takeWhile p = l := by
  induction l with
  | nil => simp [List.takeWhile_cons, hx]
  | cons a t ih =>
    have ha : p a = true := h a (List.mem_cons_self a t)
    simp only [List.cons_append, List.takeWhile_cons, ha, if_true]
    rw [ih (fun c hc => h c (List.mem_cons_of_mem a hc))]

theorem isDelim_nil : isDelim [] = false := by decide

theorem isDelim_cons_not_dash (c : Char) (l : List Char) (h : c ≠ '-') :
    isDelim (c :: l) = false := by
  unfold isDelim
  have : (c == '-') = false := by simp [h]
  simp [List.all_cons, this]

theorem stripCR_nil : stripCR [] = [] := by decide

theorem stripCR_cons (c : Char) (l : List Char) :
    stripCR (c :: l) = [] ∨ ∃ t, stripCR (c :: l) = c :: t := by
  unfold stripCR
  by_cases h : (c :: l).getLast? = some '\r'
  · rw [if_pos h]
    cases l with
    | nil => left; rfl
    | cons a t => right; exact ⟨(a :: t).dropLast, List.dropLast_cons₂⟩
  · right; exact ⟨l, by rw [if_neg h]⟩

theorem matchDelimLine_cons_none (c : Char) (s : List Char) (hc : c ≠ '-') :
    matchDelimLine (c :: s) = none := by
  have hdelim : isDelim (stripCR ((c :: s).takeWhile (fun x => x != '\n'))) =
      false := by
    by_cases hn : c = '\n'
    · subst hn
      simp [List.takeWhile_cons, stripCR_nil, isDelim_nil]
    · have : (c != '\n') = true := by simp [hn]
      rw [List.takeWhile_cons, if_pos this]
      rcases stripCR_cons c (s.takeWhile (fun x => x != '\n')) with h | ⟨t, h⟩
      · rw [h]; exact isDelim_nil
      · rw [h]; exact isDelim_cons_not_dash c t hc
  unfold matchDelimLine
  split
  · rw [if_neg (by simp [hdelim])]
  · rfl

theorem matchBlockAt_cons_none (c : Char) (s : List Char) (hc : c ≠ '-') :
    matchBlockAt (c :: s) = none := by
  unfold matchBlockAt
  rw [matchDelimLine_cons_none c s hc]

theorem matchBlockAt_nil : matchBlockAt [] = none := rfl

theorem findBlock_of_matchBlockAt (s : List Char) (r : List Char × List Char)
    (h : matchBlockAt s = some r) : findBlock s = some r := by
  cases s with
  | nil => rw [matchBlockAt_nil] at h; cases h
  | cons c t => unfold findBlock; rw [h]

theorem findBlock_cons (c : Char) (s : List Char) :
    findBlock (c :: s) =
      match matchBlockAt (c :: s) with
      | some r => some r
      | none => findBlock s := rfl

theorem findBlock_append_no_dash (pre s : List Char)
    (h : ∀ c ∈ pre, c ≠ '-') : findBlock (pre ++ s) = findBlock s := by
  induction pre with
  | nil => rfl
  | cons c t ih =>
    have hc : c ≠ '-' := h c (List.mem_cons_self c t)
    show findBlock (c :: (t ++ s)) = findBlock s
    rw [findBlock_cons, matchBlockAt_cons_none c (t ++ s) hc]
    exact ih (fun x hx => h x (List.mem_cons_of_mem c hx))

theorem matchDelimLine_eq (dl r : List Char) (hnl : '\n' ∉ dl)
    (hd : isDelim (stripCR dl) = true) :
    matchDelimLine (dl ++ '\n' :: r) = some r := by
  have h1 : (dl ++ '\n' :: r).takeWhile (fun c => c != '\n') = dl :=
    takeWhile_all_append _ dl '\n' r
      (fun c hc => by simp; exact fun h => hnl (h ▸ hc)) (by simp)
  unfold matchDelimLine
  rw [h1, List.drop_left, hd]
  simp

theorem matchBlockAt_block (dl₁ tok dl₂ r : List Char)
    (h₁ : '\n' ∉ dl₁) (hd₁ : isDelim (stripCR dl₁) = true)
    (ht : tok ≠ []) (htc : ∀ c ∈ tok, isTokenChar c = true)
    (h₂ : '\n' ∉ dl₂) (hd₂ : isDelim (stripCR dl₂) = true) :
    matchBlockAt (dl₁ ++ '\n' :: (tok ++ '\n' :: (dl₂ ++ '\n' :: r))) =
      some (tok, r) := by
  have hcap : (tok ++ '\n' :: (dl₂ ++ '\n' :: r)).takeWhile isTokenChar = tok :=
    takeWhile_all_append _ tok '\n' _ htc (by decide)
  simp only [matchBlockAt, matchDelimLine_eq _ _ h₁ hd₁, hcap, List.drop_left,
    matchCRLF, matchDelimLine_eq _ _ h₂ hd₂, if_neg ht]

theorem matchBlockAt_block_cr (dl₁ tok dl₂ r : List Char)
    (h₁ : '\n' ∉ dl₁) (hd₁ : isDelim (stripCR dl₁) = true)
    (ht : tok ≠ []) (htc : ∀ c ∈ tok, isTokenChar c = true)
    (h₂ : '\n' ∉ dl₂) (hd₂ : isDelim (stripCR dl₂) = true) :
    matchBlockAt (dl₁ ++ '\n' :: (tok ++ '\r' :: '\n' :: (dl₂ ++ '\n' :: r))) =
      some (tok, r) := by
  have hcap :
      (tok ++ '\r' :: '\n' :: (dl₂ ++ '\n' :: r)).takeWhile isTokenChar = tok :=
    takeWhile_all_append _ tok '\r' _ htc (by decide)
  simp only [matchBlockAt, matchDelimLine_eq _ _ h₁ hd₁, hcap, List.drop_left,
    matchCRLF, matchDelimLine_eq _ _ h₂ hd₂, if_neg ht]

theorem count_drop_le (n : Nat) (l : List Char) (a : Char) :
    (l.drop n).count a ≤ l.count a := by
  conv_rhs => rw [← List.take_append_drop n l]
  rw [List.count_append]
  omega

theorem matchDelimLine_count (s r : List Char) (h : matchDelimLine s = some r) :
    r.count '\n' + 1 ≤ s.count '\n' := by
  unfold matchDelimLine at h
  split at h
  · rename_i r' heq
    split at h
    · rw [Option.some.injEq] at h
      subst h
      have h1 : (s.drop ((s.takeWhile (fun c => c != '\n')).length)).count '\n' ≤
          s.count '\n' := count_drop_le _ s '\n'
      rw [heq, List.count_cons] at h1
      simp at h1
      omega
    · cases h
  · cases h

theorem matchCRLF_count (s r : List Char) (h : matchCRLF s = some r) :
    r.count '\n' + 1 ≤ s.count '\n' := by
  unfold matchCRLF at h
  split at h
  · rw [Option.some.injEq] at h
    subst h
    simp [List.count_cons]
  · rw [Option.some.injEq] at h
    subst h
    simp [List.count_cons]
  · cases h

theorem matchBlockAt_count (s : List Char) (cap r : List Char)
    (h : matchBlockAt s = some (cap, r)) : 3 ≤ s.count '\n' := by
  unfold matchBlockAt at h
  split at h
  · cases h
  · rename_i r1 heq1
    split at h
    · cases h
    · split at h
      · cases h
      · rename_i r2 heq2
        split at h
        · cases h
        · rename_i r3 heq3
          have c1 := matchDelimLine_count s r1 heq1
          have c2 := matchCRLF_count _ r2 heq2
          have c3 := matchDelimLine_count r2 r3 heq3
          have cd := count_drop_le (r1.takeWhile isTokenChar).length r1 '\n'
          omega

theorem findBlock_none_of_count (s : List Char) (h : s.count '\n' < 3) :
    findBlock s = none := by
  induction s with
  | nil => rfl
  | cons c t ih =>
    have hct : (c :: t).count '\n' = t.count '\n' + if c == '\n' then 1 else 0 :=
      List.count_cons '\n' c t
    rw [findBlock_cons]
    cases hm : matchBlockAt (c :: t) with
    | some r =>
      have h3 := matchBlockAt_count (c :: t) r.1 r.2 (by rw [hm])
      exact absurd h3 (by omega)
    | none =>
      exact ih (by by_cases hcn : c == '\n' <;> simp [hcn] at hct <;> omega)

theorem matchBlockAt_cap_facts (s : List Char) (cap r : List Char)
    (h : matchBlockAt s = some (cap, r)) :
    cap ≠ [] ∧ ∀ c ∈ cap, isTokenChar c = true := by
  unfold matchBlockAt at h
  split at h
  · cases h
  · rename_i r1 heq1
    split at h
    · cases h
    · rename_i hne
      split at h
      · cases h
      · split at h
        · cases h
        · rw [Option.some.injEq, Prod.mk.injEq] at h
          obtain ⟨h1, _⟩ := h
          subst h1
          exact ⟨hne, fun c hcm => List.mem_takeWhile_imp hcm⟩

theorem findBlock_cap_facts (s : List Char) (cap r : List Char)
    (h : findBlock s = some (cap, r)) :
    cap ≠ [] ∧ ∀ c ∈ cap, isTokenChar c = true := by
  induction s with
  | nil => exact Option.noConfusion h
  | cons c t ih =>
    rw [findBlock_cons] at h
    cases hm : matchBlockAt (c :: t) with
    | some r0 =>
      rw [hm] at h
      rw [Option.some.injEq] at h
      exact matchBlockAt_cap_facts (c :: t) cap r (h ▸ hm)
    | none =>
      rw [hm] at h
      exact ih h

theorem isTokenChar_class (c : Char) (h : isTokenChar c = true) :
    ('A' ≤ c ∧ c ≤ 'Z') ∨ ('a' ≤ c ∧ c ≤ 'z') ∨ ('0' ≤ c ∧ c ≤ '9') ∨
      c = '_' ∨ c = '.' ∨ c = '=' ∨ c = '-' ∨
      isLatin1WordExtra c = true := by
  unfold isTokenChar at h
  simp [Char.isAlphanum, Char.isAlpha, Char.isUpper, Char.isLower,
    Char.isDigit] at h
  rcases h with ((((((⟨h1, h2⟩ | ⟨h1, h2⟩) | ⟨h1, h2⟩) | h) | h) | h) | h) | h
  · exact Or.inl ⟨Char.le_def.mpr h1, Char.le_def.mpr h2⟩
  · exact Or.inr (Or.inl ⟨Char.le_def.mpr h1, Char.le_def.mpr h2⟩)
  · exact Or.inr (Or.inr (Or.inl ⟨Char.le_def.mpr h1, Char.le_def.mpr h2⟩))
  · exact Or.inr (Or.inr (Or.inr (Or.inl h)))
  · exact Or.inr (Or.inr (Or.inr (Or.inr (Or.inr (Or.inr (Or.inl h))))))
  · exact Or.inr (Or.inr (Or.inr (Or.inr (Or.inl h))))
  · exact Or.inr (Or.inr (Or.inr (Or.inr (Or.inr (Or.inl h)))))
  · exact Or.inr (Or.inr (Or.inr (Or.inr (Or.inr (Or.inr (Or.inr h))))))

/-! ### Helper lemmas about Base64 -/

theorem b64Char_props : ∀ i : Nat, i < 64 →
    (('A' ≤ b64Char i ∧ b64Char i ≤ 'Z') ∨ ('a' ≤ b64Char i ∧ b64Char i ≤ 'z') ∨
      ('0' ≤ b64Char i ∧ b64Char i ≤ '9') ∨ b64Char i = '-' ∨ b64Char i = '_') ∧
      b64Char i ≠ '=' ∧ b64Char i ≠ '+' ∧ b64Char i ≠ '/' := by decide

theorem b64Index_b64Char : ∀ i : Nat, i < 64 → b64Index (b64Char i) = i := by
  decide

theorem mem_base64urlEncode : ∀ (l : List Nat), (∀ b ∈ l, b < 256) →
    ∀ c ∈ base64urlEncode l, ∃ i, i < 64 ∧ c = b64Char i
  | [], _, c, hc => by simp [base64urlEncode] at hc
  | [b0], hb, c, hc => by
    have h0 : b0 < 256 := hb b0 (by simp)
    simp [base64urlEncode] at hc
    rcases hc with h | h
    · exact ⟨b0 / 4, by omega, h⟩
    · exact ⟨b0 % 4 * 16, by omega, h⟩
  | [b0, b1], hb, c, hc => by
    have h0 : b0 < 256 := hb b0 (by simp)
    have h1 : b1 < 256 := hb b1 (by simp)
    simp [base64urlEncode] at hc
    rcases hc with h | h | h
    · exact ⟨b0 / 4, by omega, h⟩
    · exact ⟨b0 % 4 * 16 + b1 / 16, by omega, h⟩
    · exact ⟨b1 % 16 * 4, by omega, h⟩
  | b0 :: b1 :: b2 :: rest, hb, c, hc => by
    have h0 : b0 < 256 := hb b0 (by simp)
    have h1 : b1 < 256 := hb b1 (by simp)
    have h2 : b2 < 256 := hb b2 (by simp)
    simp [base64urlEncode] at hc
    rcases hc with h | h | h | h | h
    · exact ⟨b0 / 4, by omega, h⟩
    · exact ⟨b0 % 4 * 16 + b1 / 16, by omega, h⟩
    · exact ⟨b1 % 16 * 4 + b2 / 64, by omega, h⟩
    · exact ⟨b2 % 64, by omega, h⟩
    · exact mem_base64urlEncode rest (fun b hbm => hb b (by simp [hbm])) c h

theorem b64_roundtrip : ∀ (l : List Nat), (∀ b ∈ l, b < 256) →
    base64urlDecode (base64urlEncode l) = l
  | [], _ => rfl
  | [b0], hb => by
    have h0 : b0 < 256 := hb b0 (by simp)
    have e0 := b64Index_b64Char (b0 / 4) (by omega)
    have e1 := b64Index_b64Char (b0 % 4 * 16) (by omega)
    simp [base64urlEncode, base64urlDecode, base64urlDecodeIdx, e0, e1]
    omega
  | [b0, b1], hb => by
    have h0 : b0 < 256 := hb b0 (by simp)
    have h1 : b1 < 256 := hb b1 (by simp)
    have e0 := b64Index_b64Char (b0 / 4) (by omega)
    have e1 := b64Index_b64Char (b0 % 4 * 16 + b1 / 16) (by omega)
    have e2 := b64Index_b64Char (b1 % 16 * 4) (by omega)
    simp [base64urlEncode, base64urlDecode, base64urlDecodeIdx, e0, e1, e2]
    omega
  | b0 :: b1 :: b2 :: rest, hb => by
    have h0 : b0 < 256 := hb b0 (by simp)
    have h1 : b1 < 256 := hb b1 (by simp)
    have h2 : b2 < 256 := hb b2 (by simp)
    have ih := b64_roundtrip rest (fun b hbm => hb b (by simp [hbm]))
    have e0 := b64Index_b64Char (b0 / 4) (by omega)
    have e1 := b64Index_b64Char (b0 % 4 * 16 + b1 / 16) (by omega)
    have e2 := b64Index_b64Char (b1 % 16 * 4 + b2 / 64) (by omega)
    have e3 := b64Index_b64Char (b2 % 64) (by omega)
    simp only [base64urlDecode] at ih
    simp only [base64urlEncode, base64urlDecode, List.map_cons, e0, e1, e2, e3,
      base64urlDecodeIdx, List.cons.injEq]
    exact ⟨by omega, by omega, by omega, ih⟩

/-! ### Helper lemmas about the line scanner of `load_nk` -/

theorem load_nk_go_skip {K : Type} (d : List Char → Option K)
    (pres rest : List (List Char))
    (hpre : ∀ p ∈ pres, isSeedLine (trimAscii p) = false) :
    load_nk_go d (pres ++ rest) = load_nk_go d rest := by
  induction pres with
  | nil => rfl
  | cons p t ih =>
    have hp : isSeedLine (trimAscii p) = false := hpre p (List.mem_cons_self p t)
    show load_nk_go d (p :: (t ++ rest)) = load_nk_go d rest
    simp only [load_nk_go, hp, Bool.false_eq_true, if_false]
    exact ih (fun x hx => hpre x (List.mem_cons_of_mem p hx))

theorem load_nk_go_hit {K : Type} (d : List Char → Option K) (l : List Char)
    (rest : List (List Char)) (hl : isSeedLine (trimAscii l) = true) :
    load_nk_go d (l :: rest) =
      match d (trimAscii l) with
      | none => .error .InvalidSeed
      | some kp => .ok kp := by
  simp only [load_nk_go, hl, if_true]

/-- Any capture returned by either decorated-block parse function is a
nonempty run of token-class characters. -/
theorem parse_cap_tokenChars (contents cap : List Char)
    (h : parse_decorated_jwt contents = some cap ∨
      parse_decorated_nkey contents = some cap) :
    cap ≠ [] ∧ ∀ c ∈ cap, isTokenChar c = true := by
  rcases h with h | h
  · unfold parse_decorated_jwt at h
    split at h
    · cases h
    · rename_i cap0 rest0 heq
      rw [Option.some.injEq] at h
      subst h
      exact findBlock_cap_facts contents _ _ heq
  · unfold parse_decorated_nkey at h
    split at h
    · cases h
    · rename_i tok0 rest0 heq1
      split at h
      · cases h
      · rename_i cap0 rest1 heq2
        rw [Option.some.injEq] at h
        subst h
        exact findBlock_cap_facts rest0 _ _ heq2

/-! ### Claim theorems -/

/-- C1: For every combined credentials document containing at least two
decorated blocks — modelled generatively as dash-free banner text, a first
well-formed decorated block, dash-free interleaving text, a second
well-formed decorated block, and an arbitrary suffix (which may contain any
number of further blocks) — `load_creds` returns the first block's inner
content line exactly as the token, and the keypair decoded from the second
block's inner content line; the suffix, and hence any third or later
decorated block, has no effect on the result. -/
theorem parse_combined_first_two_blocks {K : Type} (d : List Char → Option K)
    (banner dl₁ tok dl₂ mid dl₃ seed dl₄ suffix : List Char) (kp : K)
    (hban : ∀ c ∈ banner, c ≠ '-') (hmid : ∀ c ∈ mid, c ≠ '-')
    (h₁ : '\n' ∉ dl₁) (hd₁ : isDelim (stripCR dl₁) = true)
    (h₂ : '\n' ∉ dl₂) (hd₂ : isDelim (stripCR dl₂) = true)
    (h₃ : '\n' ∉ dl₃) (hd₃ : isDelim (stripCR dl₃) = true)
    (h₄ : '\n' ∉ dl₄) (hd₄ : isDelim (stripCR dl₄) = true)
    (ht : tok ≠ []) (htc : ∀ c ∈ tok, isTokenChar c = true)
    (hs : seed ≠ []) (hsc : ∀ c ∈ seed, isTokenChar c = true)
    (hk : d seed = some kp) :
    load_creds d (banner ++ (dl₁ ++ '\n' :: (tok ++ '\n' :: (dl₂ ++ '\n' ::
        (mid ++ (dl₃ ++ '\n' :: (seed ++ '\n' :: (dl₄ ++ '\n' ::
          suffix)))))))) = .ok (tok, kp) := by
  have hfb1 : findBlock (banner ++ (dl₁ ++ '\n' :: (tok ++ '\n' :: (dl₂ ++
      '\n' :: (mid ++ (dl₃ ++ '\n' :: (seed ++ '\n' :: (dl₄ ++ '\n' ::
        suffix)))))))) =
      some (tok, mid ++ (dl₃ ++ '\n' :: (seed ++ '\n' :: (dl₄ ++ '\n' ::
        suffix)))) := by
    rw [findBlock_append_no_dash banner _ hban]
    exact findBlock_of_matchBlockAt _ _
      (matchBlockAt_block dl₁ tok dl₂ _ h₁ hd₁ ht htc h₂ hd₂)
  have hfb2 : findBlock (mid ++ (dl₃ ++ '\n' :: (seed ++ '\n' :: (dl₄ ++
      '\n' :: suffix)))) = some (seed, suffix) := by
    rw [findBlock_append_no_dash mid _ hmid]
    exact findBlock_of_matchBlockAt _ _
      (matchBlockAt_block dl₃ seed dl₄ _ h₃ hd₃ hs hsc h₄ hd₄)
  simp only [load_creds, parse_decorated_jwt, parse_decorated_nkey, hfb1,
    hfb2, hk]

theorem parse_combined_first_two_blocks_witness :
    load_creds (fun (_ : List Char) => some (0 : Nat))
      ("banner\n".data ++ ("------".data ++ '\n' :: ("TOK".data ++ '\n' ::
        ("------".data ++ '\n' :: ("\n".data ++ ("------".data ++ '\n' ::
          ("SEED".data ++ '\n' :: ("------".data ++ '\n' ::
            "third block ignored".data)))))))) = .ok ("TOK".data, 0) :=
  parse_combined_first_two_blocks _ _ _ _ _ _ _ _ _ _ 0
    (by decide) (by decide) (by decide) (by decide) (by decide) (by decide)
    (by decide) (by decide) (by decide) (by decide) (by decide) (by decide)
    (by decide) (by decide) rfl

/-- C2: If no decorated block matches anywhere in the document, `load_creds`
fails with `MissingToken` (cannot parse user JWT); if exactly one decorated
block matches (one leftmost match, and no further match in the remainder),
it fails with `MissingSeed` (cannot parse nkey).  In both cases no
token/keypair pair is returned. -/
theorem load_creds_missing_errors {K : Type} (d : List Char → Option K)
    (contents : List Char) :
    (findBlock contents = none →
      load_creds d contents = .error .MissingToken) ∧
    (∀ tok rest, findBlock contents = some (tok, rest) →
      findBlock rest = none →
      load_creds d contents = .error .MissingSeed) := by
  constructor
  · intro h
    simp only [load_creds, parse_decorated_jwt, parse_decorated_nkey, h]
  · intro tok rest h1 h2
    simp only [load_creds, parse_decorated_jwt, parse_decorated_nkey, h1, h2]

theorem load_creds_missing_errors_witness :
    load_creds (fun (_ : List Char) => some (0 : Nat))
      "no decorated blocks here\n".data = .error .MissingToken ∧
    load_creds (fun (_ : List Char) => some (0 : Nat))
      "------\nTOK\n------\n".data = .error .MissingSeed :=
  ⟨(load_creds_missing_errors _ _).1 (by decide),
   (load_creds_missing_errors _ _).2 "TOK".data [] (by decide) (by decide)⟩

/-- C3: For every seed-only document whose line list splits as non-matching
lines, then a line whose trimmed content starts with `SO`, `SA` or `SU`,
then arbitrary further lines, `load_nk` passes the full trimmed content of
that first matching line to the seed decoder and returns the resulting
keypair; the later lines (including any further matching ones) and the
surrounding non-matching lines are ignored. -/
theorem load_nk_first_matching_line {K : Type} (d : List Char → Option K)
    (contents : List Char) (pres posts : List (List Char)) (l : List Char)
    (kp : K)
    (hsplit : rustLines contents = pres ++ l :: posts)
    (hpre : ∀ p ∈ pres, isSeedLine (trimAscii p) = false)
    (hl : isSeedLine (trimAscii l) = true)
    (hk : d (trimAscii l) = some kp) :
    load_nk d contents = .ok kp := by
  unfold load_nk
  rw [hsplit, load_nk_go_skip d pres _ hpre, load_nk_go_hit d l posts hl, hk]

theorem load_nk_first_matching_line_witness :
    load_nk (fun l => some l) "# comment\n  SUABC\nSOX\n".data =
      .ok "SUABC".data :=
  load_nk_first_matching_line _ _ ["# comment".data] ["SOX".data]
    "  SUABC".data "SUABC".data (by decide) (by decide) (by decide)
    (by decide)

/-- C4: For every seed-only document in which no line's trimmed content
starts with `SO`, `SA` or `SU`, `load_nk` fails with `NoSeedFound`
(no nkey seed found). -/
theorem load_nk_no_seed_found {K : Type} (d : List Char → Option K)
    (contents : List Char)
    (h : ∀ ln ∈ rustLines contents, isSeedLine (trimAscii ln) = false) :
    load_nk d contents = .error .NoSeedFound := by
  unfold load_nk
  rw [← List.append_nil (rustLines contents),
    load_nk_go_skip d _ [] h]
  rfl

theorem load_nk_no_seed_found_witness :
    load_nk (fun (_ : List Char) => some (0 : Nat)) "hello\nworld\n".data =
      .error .NoSeedFound :=
  load_nk_no_seed_found _ _ (by decide)

/-- C5: Whenever the selected seed text fails to decode, the operation fails
with `InvalidSeed` and no later candidate is tried: `load_creds` fails when
the second decorated block's content does not decode, and `load_nk` fails
when the trimmed content of the first `SO`/`SA`/`SU` line does not decode. -/
theorem invalid_seed_propagation {K : Type} (d : List Char → Option K) :
    (∀ contents tok rest seedtxt rest2,
      findBlock contents = some (tok, rest) →
      findBlock rest = some (seedtxt, rest2) →
      d seedtxt = none →
      load_creds d contents = .error .InvalidSeed) ∧
    (∀ contents pres posts l,
      rustLines contents = pres ++ l :: posts →
      (∀ p ∈ pres, isSeedLine (trimAscii p) = false) →
      isSeedLine (trimAscii l) = true →
      d (trimAscii l) = none →
      load_nk d contents = .error .InvalidSeed) := by
  constructor
  · intro contents tok rest seedtxt rest2 h1 h2 hd
    simp only [load_creds, parse_decorated_jwt, parse_decorated_nkey, h1, h2,
      hd]
  · intro contents pres posts l hsplit hpre hl hd
    unfold load_nk
    rw [hsplit, load_nk_go_skip d pres _ hpre, load_nk_go_hit d l posts hl,
      hd]

theorem invalid_seed_propagation_witness :
    load_creds (fun (_ : List Char) => (none : Option Nat))
      "------\nTOK\n------\n------\nBADSEED\n------\n".data =
      .error .InvalidSeed ∧
    load_nk (fun (_ : List Char) => (none : Option Nat)) "SUX\n".data =
      .error .InvalidSeed :=
  ⟨(invalid_seed_propagation _).1 _ "TOK".data
      ("------".data ++ '\n' :: ("BADSEED".data ++ '\n' ::
        ("------".data ++ '\n' :: []))) "BADSEED".data [] (by decide)
      (by decide) rfl,
   (invalid_seed_propagation _).2 _ [] [] "SUX".data (by decide) (by decide)
      (by decide) rfl⟩

/-- C6: `sign_nonce` signs exactly the given challenge bytes (the signing
primitive receives the nonce untransformed) and returns the raw signature
encoded as URL-safe Base64 without padding: every character of the result is
in `[A-Za-z0-9_-]`, and the result never contains `=`, `+` or `/`. -/
theorem sign_nonce_urlsafe_charset {K : Type}
    (sign : K → List Nat → Option (List Nat)) (kp : K) (nonce sig : List Nat)
    (hsig : sign kp nonce = some sig) (hb : ∀ b ∈ sig, b < 256) :
    sign_nonce sign kp nonce = .ok (base64urlEncode sig) ∧
    ∀ c ∈ base64urlEncode sig,
      (('A' ≤ c ∧ c ≤ 'Z') ∨ ('a' ≤ c ∧ c ≤ 'z') ∨ ('0' ≤ c ∧ c ≤ '9') ∨
        c = '-' ∨ c = '_') ∧ c ≠ '=' ∧ c ≠ '+' ∧ c ≠ '/' := by
  constructor
  · simp only [sign_nonce, hsig]
  · intro c hc
    obtain ⟨i, hi, hci⟩ := mem_base64urlEncode sig hb c hc
    subst hci
    exact b64Char_props i hi

theorem sign_nonce_urlsafe_charset_witness :
    sign_nonce (fun (_ : Unit) (_ : List Nat) => some [0, 255, 7]) ()
      [1, 2, 3] = .ok "AP8H".data := by
  have h := (sign_nonce_urlsafe_charset (fun _ _ => some [0, 255, 7]) ()
    [1, 2, 3] [0, 255, 7] rfl (by decide)).1
  rw [h]
  rfl

/-- C7: URL-safe Base64 decoding of the encoded string returned by
`sign_nonce` reproduces exactly the raw signature bytes produced by the
signing primitive (decode after encode is the identity on the signature). -/
theorem sign_nonce_roundtrip {K : Type}
    (sign : K → List Nat → Option (List Nat)) (kp : K) (nonce sig : List Nat)
    (hsig : sign kp nonce = some sig) (hb : ∀ b ∈ sig, b < 256) :
    ∃ enc, sign_nonce sign kp nonce = .ok enc ∧ base64urlDecode enc = sig :=
  ⟨base64urlEncode sig, by simp only [sign_nonce, hsig],
    b64_roundtrip sig hb⟩

theorem sign_nonce_roundtrip_witness :
    ∃ enc, sign_nonce (fun (_ : Unit) (_ : List Nat) => some [10, 20, 30, 40])
      () [9] = .ok enc ∧ base64urlDecode enc = [10, 20, 30, 40] :=
  sign_nonce_roundtrip _ () [9] [10, 20, 30, 40] rfl (by decide)

/-- C8 counterexample: the regex crate's `\w` is Unicode-aware, so
`USER_CONFIG_RE` captures word characters outside `[A-Za-z0-9_.=-]`.  The
document whose inner line is the single letter é (U+00E9, a Unicode word
character) is matched, and é — a character outside the claimed class — is
captured as the token. -/
theorem unicode_word_char_captured :
    parse_decorated_jwt "------\né\n------\n".data = some ['é'] ∧
    ¬ (('A' ≤ 'é' ∧ 'é' ≤ 'Z') ∨ ('a' ≤ 'é' ∧ 'é' ≤ 'z') ∨
      ('0' ≤ 'é' ∧ 'é' ≤ '9') ∨ 'é' = '_' ∨ 'é' = '.' ∨ 'é' = '=' ∨
      'é' = '-') :=
  ⟨rfl, by decide⟩

/-- C8 (amended): every token or seed string captured by the decorated-block
parser (the inner content line returned by `parse_decorated_jwt` or
`parse_decorated_nkey`) consists only of characters matching the pattern
class `[\w\-.=]` with Unicode-aware `\w`: each captured character is in the
ASCII class `[A-Za-z0-9_.=-]` or is a non-ASCII word character (here, of the
Latin-1 range the model covers). -/
theorem captured_token_charset (contents cap : List Char)
    (h : parse_decorated_jwt contents = some cap ∨
      parse_decorated_nkey contents = some cap) :
    ∀ c ∈ cap,
      ('A' ≤ c ∧ c ≤ 'Z') ∨ ('a' ≤ c ∧ c ≤ 'z') ∨ ('0' ≤ c ∧ c ≤ '9') ∨
        c = '_' ∨ c = '.' ∨ c = '=' ∨ c = '-' ∨
        isLatin1WordExtra c = true :=
  fun c hc => isTokenChar_class c ((parse_cap_tokenChars contents cap h).2 c hc)

theorem captured_token_charset_witness :
    ('A' ≤ 'é' ∧ 'é' ≤ 'Z') ∨ ('a' ≤ 'é' ∧ 'é' ≤ 'z') ∨
      ('0' ≤ 'é' ∧ 'é' ≤ '9') ∨ 'é' = '_' ∨ 'é' = '.' ∨ 'é' = '=' ∨
      'é' = '-' ∨ isLatin1WordExtra 'é' = true :=
  captured_token_charset "------\nTéK\n------\n".data "TéK".data
    (Or.inl (by decide)) 'é' (by decide)

/-- C9 counterexample: the claim asserts that a combined document whose
inner token line carries leading or trailing whitespace still yields its
capture with the whitespace excluded.  In fact the regex requires the token
characters to start immediately after the opening delimiter's newline and to
be followed immediately by `\r?\n`, so a document whose inner line begins
with a space yields no capture at all, and `load_creds` fails with
`MissingToken` instead of returning the trimmed token `TOK`. -/
theorem padded_inner_line_no_capture :
    parse_decorated_jwt "------\n TOK\n------\n".data = none ∧
    load_creds (fun (_ : List Char) => some (0 : Nat))
      "------\n TOK\n------\n".data = .error .MissingToken :=
  ⟨rfl, rfl⟩

/-- C9 (amended): a trailing carriage return on the inner content line is
tolerated and excluded from the capture, but inner lines carrying leading or
trailing spaces or tabs (or a leading carriage return) do not match at all;
consequently a captured token/seed string never begins or ends with — indeed
never contains — whitespace or a carriage return. -/
theorem captured_content_no_whitespace :
    (∀ banner dl₁ tok dl₂ r : List Char,
      (∀ c ∈ banner, c ≠ '-') →
      '\n' ∉ dl₁ → isDelim (stripCR dl₁) = true →
      tok ≠ [] → (∀ c ∈ tok, isTokenChar c = true) →
      '\n' ∉ dl₂ → isDelim (stripCR dl₂) = true →
      parse_decorated_jwt (banner ++ (dl₁ ++ '\n' :: (tok ++ '\r' :: '\n' ::
        (dl₂ ++ '\n' :: r)))) = some tok) ∧
    (∀ contents cap,
      (parse_decorated_jwt contents = some cap ∨
        parse_decorated_nkey contents = some cap) →
      cap ≠ [] ∧ ∀ c ∈ cap, c ≠ ' ' ∧ c ≠ '\t' ∧ c ≠ '\r' ∧ c ≠ '\n') := by
  constructor
  · intro banner dl₁ tok dl₂ r hban h₁ hd₁ ht htc h₂ hd₂
    have hfb : findBlock (banner ++ (dl₁ ++ '\n' :: (tok ++ '\r' :: '\n' ::
        (dl₂ ++ '\n' :: r)))) = some (tok, r) := by
      rw [findBlock_append_no_dash banner _ hban]
      exact findBlock_of_matchBlockAt _ _
        (matchBlockAt_block_cr dl₁ tok dl₂ r h₁ hd₁ ht htc h₂ hd₂)
    simp only [parse_decorated_jwt, hfb]
  · intro contents cap h
    obtain ⟨hne, htc⟩ := parse_cap_tokenChars contents cap h
    refine ⟨hne, fun c hc => ?_⟩
    have ht := htc c hc
    refine ⟨?_, ?_, ?_, ?_⟩ <;> rintro rfl <;> exact absurd ht (by decide)

theorem captured_content_no_whitespace_witness :
    parse_decorated_jwt ([] ++ ("------".data ++ '\n' :: ("TOK".data ++
      '\r' :: '\n' :: ("------".data ++ '\n' :: [])))) = some "TOK".data :=
  captured_content_no_whitespace.1 [] _ _ _ [] (by decide) (by decide)
    (by decide) (by decide) (by decide) (by decide) (by decide)

/-- C10: a decorated block is recognized only if its closing delimiter line
is terminated by a newline.  A document whose final, otherwise well-formed
decorated block ends at end-of-file without that newline does not match:
`load_creds` fails with `MissingToken` when it was the only block, and with
`MissingSeed` when it was the second block. -/
theorem closing_delim_requires_newline {K : Type} (d : List Char → Option K) :
    (∀ banner dl₁ tok dl₂ : List Char,
      (∀ c ∈ banner, c ≠ '-') →
      '\n' ∉ dl₁ → isDelim (stripCR dl₁) = true →
      tok ≠ [] → (∀ c ∈ tok, isTokenChar c = true) → '\n' ∉ tok →
      '\n' ∉ dl₂ → isDelim (stripCR dl₂) = true →
      load_creds d (banner ++ (dl₁ ++ '\n' :: (tok ++ '\n' :: dl₂))) =
        .error .MissingToken) ∧
    (∀ banner dl₁ tok dl₂ mid dl₃ seed dl₄ : List Char,
      (∀ c ∈ banner, c ≠ '-') → (∀ c ∈ mid, c ≠ '-') →
      '\n' ∉ dl₁ → isDelim (stripCR dl₁) = true →
      tok ≠ [] → (∀ c ∈ tok, isTokenChar c = true) →
      '\n' ∉ dl₂ → isDelim (stripCR dl₂) = true →
      '\n' ∉ dl₃ → isDelim (stripCR dl₃) = true →
      seed ≠ [] → (∀ c ∈ seed, isTokenChar c = true) → '\n' ∉ seed →
      '\n' ∉ dl₄ → isDelim (stripCR dl₄) = true →
      load_creds d (banner ++ (dl₁ ++ '\n' :: (tok ++ '\n' :: (dl₂ ++ '\n' ::
        (mid ++ (dl₃ ++ '\n' :: (seed ++ '\n' :: dl₄)))))))
        = .error .MissingSeed) := by
  constructor
  · intro banner dl₁ tok dl₂ hban h₁ hd₁ ht htc htn h₂ hd₂
    have e1 : dl₁.count '\n' = 0 := List.count_eq_zero.mpr h₁
    have e2 : tok.count '\n' = 0 := List.count_eq_zero.mpr htn
    have e3 : dl₂.count '\n' = 0 := List.count_eq_zero.mpr h₂
    have hfb : findBlock (banner ++ (dl₁ ++ '\n' :: (tok ++ '\n' :: dl₂))) =
        none := by
      rw [findBlock_append_no_dash banner _ hban]
      apply findBlock_none_of_count
      simp [List.count_append, List.count_cons, e1, e2, e3]
    simp only [load_creds, parse_decorated_jwt, hfb]
  · intro banner dl₁ tok dl₂ mid dl₃ seed dl₄ hban hmid h₁ hd₁ ht htc h₂ hd₂
      h₃ hd₃ hs hsc hsn h₄ hd₄
    have e1 : dl₃.count '\n' = 0 := List.count_eq_zero.mpr h₃
    have e2 : seed.count '\n' = 0 := List.count_eq_zero.mpr hsn
    have e3 : dl₄.count '\n' = 0 := List.count_eq_zero.mpr h₄
    have hfb1 : findBlock (banner ++ (dl₁ ++ '\n' :: (tok ++ '\n' :: (dl₂ ++
        '\n' :: (mid ++ (dl₃ ++ '\n' :: (seed ++ '\n' :: dl₄))))))) =
        some (tok, mid ++ (dl₃ ++ '\n' :: (seed ++ '\n' :: dl₄))) := by
      rw [findBlock_append_no_dash banner _ hban]
      exact findBlock_of_matchBlockAt _ _
        (matchBlockAt_block dl₁ tok dl₂ _ h₁ hd₁ ht htc h₂ hd₂)
    have hfb2 : findBlock (mid ++ (dl₃ ++ '\n' :: (seed ++ '\n' :: dl₄))) =
        none := by
      rw [findBlock_append_no_dash mid _ hmid]
      apply findBlock_none_of_count
      simp [List.count_append, List.count_cons, e1, e2, e3]
    simp only [load_creds, parse_decorated_jwt, parse_decorated_nkey, hfb1,
      hfb2]

theorem closing_delim_requires_newline_witness :
    load_creds (fun (_ : List Char) => some (0 : Nat))
      ([] ++ ("------".data ++ '\n' :: ("TOK".data ++ '\n' ::
        "------".data))) = .error .MissingToken ∧
    load_creds (fun (_ : List Char) => some (0 : Nat))
      ([] ++ ("------".data ++ '\n' :: ("TOK".data ++ '\n' ::
        ("------".data ++ '\n' :: ([] ++ ("------".data ++ '\n' ::
          ("SEED".data ++ '\n' :: "------".data))))))) =
      .error .MissingSeed :=
  ⟨(closing_delim_requires_newline _).1 [] _ _ _ (by decide) (by decide)
      (by decide) (by decide) (by decide) (by decide) (by decide) (by decide),
   (closing_delim_requires_newline _).2 [] _ _ _ [] _ _ _ (by decide)
      (by decide) (by decide) (by decide) (by decide) (by decide) (by decide)
      (by decide) (by decide) (by decide) (by decide) (by decide) (by decide)
      (by decide) (by decide)⟩

end NatsAuth
